import Mathlib

/-!
Shallow embedding of the librosa feature-manipulation utilities
(`librosa/feature/utils.py`: `delta`, `stack_memory`, `sync`) and of the
frame/sample conversions (`librosa/core/time_frequency.py`:
`frames_to_samples`, `samples_to_frames`), together with theorems checking
the natural-language specification against this embedding.

Numeric scalars are modelled as rationals (`ℚ`); a 2-D array is a list of
rows; Python integer floor division is `Int.fdiv`; errors raised by the
library (`ParameterError`) are modelled with `Except`.
-/

namespace Librosa

/-- The single error kind raised by the library on malformed arguments. -/
structure ParameterError where
  msg : String
deriving DecidableEq, Repr

/-- A 2-D numeric array: a list of rows. -/
abbrev Mat := List (List ℚ)

/-- Column `i` of a matrix, read top to bottom (out-of-range entries read 0). -/
def column (m : Mat) (i : ℕ) : List ℚ :=
  m.map (fun r => r.getD i 0)

/-! ## stack_memory (feature/utils.py lines 203-229)

The source left-pads the matrix by `(n_steps-1)*delay` columns via `np.pad`
(default mode `constant` with value 0), then for `i = 1 .. n_steps-1`
prepends `np.roll(padded, -i*delay, axis=1)` on top of the running history,
and finally trims to the first `t` columns.  The pad policy is an external
collaborator (`np.pad`), so the embedding takes the 1-D left-padding
function as a parameter; the default policy is constant-zero fill. -/

/-- Core of `stack_memory`, parameterized by the left-padding policy
`padfn p row` (models `np.pad(row, (p, 0), **kwargs)`). -/
def stack_memory_with (padfn : ℕ → List ℚ → List ℚ) (data : Mat)
    (n_steps delay : ℤ) : Except ParameterError Mat :=
  if n_steps < 1 then .error ⟨"n_steps must be a positive integer"⟩
  else if delay < 1 then .error ⟨"delay must be a positive integer"⟩
  else
    let n := n_steps.toNat
    let dl := delay.toNat
    let t := (data.headD []).length
    let padded := data.map (padfn ((n - 1) * dl))
    let history := (List.range (n - 1)).foldl
      (fun h i => padded.map (fun row => row.rotate ((i + 1) * dl)) ++ h) padded
    .ok (history.map (fun row => row.take t))

/-- `stack_memory` on a 2-D input with the default constant-zero padding. -/
def stack_memory (data : Mat) (n_steps delay : ℤ) : Except ParameterError Mat :=
  stack_memory_with (fun p row => List.replicate p 0 ++ row) data n_steps delay

/-- `stack_memory` on a 1-D input: `np.atleast_2d` turns it into a row matrix. -/
def stack_memory1 (v : List ℚ) (n_steps delay : ℤ) : Except ParameterError Mat :=
  stack_memory [v] n_steps delay

/-- Decidable equality on `Except`, used to evaluate the embedding at
concrete inputs. -/
instance exceptDecidableEq {ε α : Type} [DecidableEq ε] [DecidableEq α] :
    DecidableEq (Except ε α) := fun x y =>
  match x, y with
  | .error e, .error f =>
      if h : e = f then .isTrue (by rw [h]) else .isFalse (by simp [h])
  | .error _, .ok _ => .isFalse (by simp)
  | .ok _, .error _ => .isFalse (by simp)
  | .ok a, .ok b =>
      if h : a = b then .isTrue (by rw [h]) else .isFalse (by simp [h])

/-! ## delta (feature/utils.py lines 83-111)

The source validates `width` and `order`, builds the regression window
`np.arange(half_length - 1, -half_length, -1)` normalized by its sum of
squares, pads the data along `axis` by `width` entries of edge replication,
applies `scipy.signal.lfilter(window, 1, ., axis)` (a causal FIR filter with
zero initial history) `order` times, and if `trim` slices back to the
original extent with `slice(-half_length - L, -half_length)`.  All of these
steps act independently on each 1-D lane along `axis`, so the embedding
defines the 1-D pipeline and maps it over the lanes (rows for `axis = 1`,
columns — via transposition — for `axis = 0`). -/

/-- The normalized delta regression window: a descending ramp from
`half_length - 1` to `-(half_length - 1)`, divided by its sum of squares. -/
def delta_window (width : ℕ) : List ℚ :=
  let half_length := 1 + width / 2
  let w := (List.range (2 * half_length - 1)).map
    (fun k : ℕ => ((half_length : ℚ) - 1 - (k : ℚ)))
  let energy := (w.map (fun x => x ^ 2)).sum
  w.map (fun x => x / energy)

/-- Causal FIR filter with zero initial history:
`y[n] = sum_k b[k] * x[n-k]` with `x[j] = 0` for `j < 0`
(models `scipy.signal.lfilter(b, 1, x)`). -/
def lfilter (b x : List ℚ) : List ℚ :=
  (List.range x.length).map (fun n =>
    ((List.range b.length).map (fun k =>
      b.getD k 0 * (if k ≤ n then x.getD (n - k) 0 else 0))).sum)

/-- Edge padding: `np.pad(x, (w, w), mode='edge')` on a 1-D lane. -/
def pad_edge (w : ℕ) (x : List ℚ) : List ℚ :=
  List.replicate w (x.headD 0) ++ x ++ List.replicate w (x.getLastD 0)

/-- The 1-D delta pipeline without argument validation: edge-pad, filter
`order` times, and optionally trim back with the Python slice
`[-half_length - L : -half_length]` (`L` the original length). -/
def delta1core (x : List ℚ) (width : ℕ) (order : ℕ) (trim : Bool) : List ℚ :=
  let half_length := 1 + width / 2
  let filtered := (List.range order).foldl
    (fun acc _ => lfilter (delta_window width) acc) (pad_edge width x)
  if trim then
    (filtered.take (filtered.length - half_length)).drop
      (filtered.length - half_length - x.length)
  else filtered

/-- `delta` on a 1-D input (`axis = -1`), with argument validation. -/
def delta1 (x : List ℚ) (width : ℕ) (order : ℤ) (trim : Bool) :
    Except ParameterError (List ℚ) :=
  if width < 3 ∨ width % 2 ≠ 1 then .error ⟨"width must be an odd integer >= 3"⟩
  else if order ≤ 0 then .error ⟨"order must be a positive integer"⟩
  else .ok (delta1core x width order.toNat trim)

/-- Transposition of a rectangular matrix with `t` columns: row `j` of the
result is column `j` of the input. -/
def transposeRect (t : ℕ) (m : Mat) : Mat :=
  (List.range t).map (fun j => m.map (fun r => r.getD j 0))

/-- `delta` on a 2-D input along `axis` (1 = rows/time, 0 = columns),
with argument validation. -/
def delta2 (m : Mat) (width : ℕ) (order : ℤ) (axis : Fin 2) (trim : Bool) :
    Except ParameterError Mat :=
  if width < 3 ∨ width % 2 ≠ 1 then .error ⟨"width must be an odd integer >= 3"⟩
  else if order ≤ 0 then .error ⟨"order must be a positive integer"⟩
  else if axis = 1 then
    .ok (m.map (fun lane => delta1core lane width order.toNat trim))
  else
    let lanes := transposeRect ((m.headD []).length) m
    let mapped := lanes.map (fun lane => delta1core lane width order.toNat trim)
    .ok (transposeRect ((mapped.headD []).length) mapped)

/-! ## sync (feature/utils.py lines 315-336)

`sync` first raises on arrays of rank beyond 2, then reshapes to 2-D,
normalizes the boundary list with `librosa.util.fix_frames` and aggregates
each consecutive boundary slice along the time axis. -/

/-- A numpy array of rank 1, 2 or 3 (rank 3 suffices to represent the inputs
`sync` rejects). -/
inductive Arr where
  | a1 : List ℚ → Arr
  | a2 : Mat → Arr
  | a3 : List Mat → Arr

/-- The rank (`ndim`) of an array. -/
def Arr.ndim : Arr → ℕ
  | .a1 _ => 1
  | .a2 _ => 2
  | .a3 _ => 3

/-- `np.atleast_2d` for ranks 1 and 2 (the only ones reaching it in `sync`). -/
def atleast_2d : Arr → Mat
  | .a1 v => [v]
  | .a2 m => m
  | .a3 _ => []

/-- Modelled from the spec: `librosa.util.fix_frames(frames, 0, T, pad)` is
not part of the provided sources; following the specification, boundaries
are clipped to `[x_min, x_max]` when `pad` is true (with `x_min` and `x_max`
inserted), or dropped when outside the range when `pad` is false, then
deduplicated and sorted ascending. -/
def fix_frames (frames : List ℤ) (x_min x_max : ℤ) (pad : Bool) : List ℤ :=
  let fs := if pad then
      x_min :: x_max :: frames.map (fun x => max x_min (min x x_max))
    else frames.filter (fun x => decide (x_min ≤ x) && decide (x ≤ x_max))
  (fs.insertionSort (· ≤ ·)).dedup

/-- `sync`: boundary-synchronous aggregation along the time axis.  The
reduction `agg` maps a row slice to a scalar (the source applies `aggregate`
with `axis=1`, reducing each feature row over the segment). -/
def sync (data : Arr) (frames : List ℤ) (agg : List ℚ → ℚ) (pad : Bool) :
    Except ParameterError Mat :=
  if data.ndim > 2 then
    .error ⟨"Synchronized data has ndim, must be 1 or 2."⟩
  else
    let m := atleast_2d data
    let n_frames := (m.headD []).length
    let fixed := fix_frames frames 0 (n_frames : ℤ) pad
    .ok (m.map (fun row =>
      (fixed.zip fixed.tail).map (fun se =>
        agg ((row.take se.2.toNat).drop se.1.toNat))))

/-! ## time_frequency (core/time_frequency.py lines 26-114)

`frames_to_samples` computes `frames * hop_length + offset` with
`offset = int(n_fft // 2)` when `n_fft` is given (0 otherwise);
`samples_to_frames` computes `floor((samples - offset) // hop_length)`.
Python's `//` on integers is floor division, which on a positive divisor is
`Int.fdiv`. -/

/-- The STFT centering offset `int(n_fft // 2)` (0 when `n_fft` is `None`). -/
def fft_offset (n_fft : Option ℤ) : ℤ :=
  match n_fft with
  | none => 0
  | some n => Int.fdiv n 2

/-- Converts frame indices to audio sample indices. -/
def frames_to_samples (frames : List ℤ) (hop_length : ℤ) (n_fft : Option ℤ) :
    List ℤ :=
  frames.map (fun f => f * hop_length + fft_offset n_fft)

/-- Converts sample indices into STFT frame indices. -/
def samples_to_frames (samples : List ℤ) (hop_length : ℤ) (n_fft : Option ℤ) :
    List ℤ :=
  samples.map (fun s => Int.fdiv (s - fft_offset n_fft) hop_length)

/-! ### Basic list helpers shared by the theorems below -/

/-- Folding block-prepends over `List.range` produces the blocks in reverse
order on top of the initial accumulator. -/
theorem foldl_prepend_blocks {α : Type} (g : ℕ → List α) (init : List α) (m : ℕ) :
    (List.range m).foldl (fun h i => g i ++ h) init
      = ((List.range m).reverse.map g).flatten ++ init := by
  induction m with
  | zero => simp
  | succ m ih =>
      rw [List.range_succ, List.foldl_append]
      simp [ih]

/-- Taking `t` elements of a rotation by `s ≤ p` of a list of length `p + t`
is the same as taking `t` elements after dropping `s`. -/
theorem rotate_take {α : Type} {P : List α} {s p t : ℕ}
    (hlen : P.length = p + t) (hs : s ≤ p) :
    (P.rotate s).take t = (P.drop s).take t := by
  rw [List.rotate_eq_drop_append_take (by omega)]
  exact List.take_append_of_le_length (by rw [List.length_drop]; omega)

/-- Extracting the `j`-th block of `d` rows from a flattened list of blocks of
uniform height `d`. -/
theorem flatten_drop_take {α : Type} (L : List (List α)) (d : ℕ)
    (hL : ∀ b ∈ L, b.length = d) (j : ℕ) (hj : j < L.length) :
    ((L.flatten).drop (j * d)).take d = L.getD j [] := by
  induction L generalizing j with
  | nil => simp at hj
  | cons b L ih =>
      have hb : b.length = d := hL b (by simp)
      cases j with
      | zero =>
          simp only [Nat.zero_mul, List.drop_zero, List.flatten_cons, List.getD_cons_zero]
          rw [List.take_append_of_le_length (by omega), ← hb, List.take_length]
      | succ j =>
          have hmul : (j + 1) * d = b.length + j * d := by rw [hb]; ring
          rw [List.flatten_cons, hmul, ← List.drop_drop, List.drop_left,
            List.getD_cons_succ]
          exact ih (fun x hx => hL x (by simp [hx])) j (by simpa using hj)

/-- Reading index `i` in a zero-block followed by a row. -/
theorem getD_replicate_append (m : ℕ) (r : List ℚ) (i : ℕ) :
    (List.replicate m (0:ℚ) ++ r).getD i 0
      = if m ≤ i then r.getD (i - m) 0 else 0 := by
  by_cases h : m ≤ i
  · rw [if_pos h, List.getD_eq_getElem?_getD, List.getD_eq_getElem?_getD,
      List.getElem?_append_right (by simpa using h)]
    simp
  · rw [if_neg h, List.getD_eq_getElem?_getD,
      List.getElem?_append_left (by simpa using Nat.lt_of_not_le h)]
    simp [List.getElem?_replicate, Nat.lt_of_not_le h]

/-! ### Structure of the stack_memory output -/

/-- Structure of the `stack_memory_with` output: it consists of `n_steps`
blocks of rows, read top to bottom; the block `j` from the top is the padded
input with the first `(n_steps-1-j)*delay` padded columns dropped, each row
truncated to the original width `t`.  (So the top block, `j = 0`, reads the
padded data starting at offset `(n_steps-1)*delay`, i.e. the current frame.) -/
theorem stack_memory_with_eq (padfn : ℕ → List ℚ → List ℚ) (data : Mat) (t : ℕ)
    (hd : data ≠ []) (hrect : ∀ r ∈ data, r.length = t)
    (n dl : ℕ) (hn : 1 ≤ n) (hdl : 1 ≤ dl)
    (hplen : ∀ r ∈ data, (padfn ((n - 1) * dl) r).length = (n - 1) * dl + t) :
    stack_memory_with padfn data n dl
      = .ok (((List.range n).map (fun j =>
          data.map (fun r =>
            ((padfn ((n - 1) * dl) r).drop ((n - 1 - j) * dl)).take t))).flatten) := by
  have ht : (data.headD []).length = t := by
    cases data with
    | nil => exact absurd rfl hd
    | cons r l => exact hrect r (by simp)
  rw [stack_memory_with]
  rw [if_neg (by omega), if_neg (by omega)]
  simp only [Int.toNat_natCast, ht]
  rw [foldl_prepend_blocks]
  rw [List.map_append, List.map_flatten, Except.ok.injEq]
  set p := (n - 1) * dl with hp
  conv_rhs => rw [show n = (n - 1) + 1 by omega, List.range_succ, List.map_append,
    List.flatten_append]
  congr 1
  · -- the rolled blocks, top to bottom, are blocks j = 0 .. n-2
    congr 1
    apply List.ext_getElem (by simp)
    intro k hk1 hk2
    simp only [List.length_map, List.length_reverse, List.length_range] at hk1 hk2
    rw [List.getElem_map, List.getElem_map, List.getElem_reverse, List.getElem_range,
      List.getElem_map, List.getElem_range]
    simp only [List.length_map, List.length_range]
    simp only [List.map_map]
    apply List.map_congr_left
    intro r hr
    have hpl : (padfn p r).length = p + t := hplen r hr
    have hs : ((n - 1 - 1 - k) + 1) * dl ≤ p := by
      rw [hp]; exact Nat.mul_le_mul_right _ (by omega)
    have hidx : (n - 1 - 1 - k) + 1 = n - 1 + 1 - 1 - k := by omega
    simp only [Function.comp]
    rw [rotate_take hpl hs, hidx]
  · -- the bottom block is j = n-1: no columns dropped
    simp only [List.flatten, List.append_nil]
    rw [List.map_map]
    apply List.map_congr_left
    intro r hr
    simp [Nat.sub_self, Function.comp]

/-- Reading index `i < t` in a drop-then-take-`t` window of a list. -/
theorem getD_drop_take {P : List ℚ} {q t i : ℕ} (hi : i < t) :
    ((P.drop q).take t).getD i 0 = P.getD (q + i) 0 := by
  rw [List.getD_eq_getElem?_getD, List.getD_eq_getElem?_getD, List.getElem?_take,
    if_pos hi, List.getElem?_drop]

/-- Shape facts for the blocks appearing in `stack_memory_with_eq`. -/
theorem stack_memory_block_shape (padfn : ℕ → List ℚ → List ℚ) (data : Mat) (t : ℕ)
    (n dl : ℕ)
    (hplen : ∀ r ∈ data, (padfn ((n - 1) * dl) r).length = (n - 1) * dl + t)
    (j : ℕ) (hj : j < n) (r : List ℚ)
    (hr : r ∈ data.map (fun r =>
        ((padfn ((n - 1) * dl) r).drop ((n - 1 - j) * dl)).take t)) :
    r.length = t := by
  obtain ⟨x, hx, rfl⟩ := List.mem_map.mp hr
  rw [List.length_take, List.length_drop, hplen x hx]
  have : (n - 1 - j) * dl ≤ (n - 1) * dl := Nat.mul_le_mul_right _ (by omega)
  omega

/-- The default constant-zero left padding has the expected length. -/
theorem padZero_length (p : ℕ) (r : List ℚ) :
    (List.replicate p (0:ℚ) ++ r).length = p + r.length := by
  simp

/-- Dropping the pad of the default constant-zero left padding recovers the row. -/
theorem padZero_drop (p : ℕ) (r : List ℚ) :
    (List.replicate p (0:ℚ) ++ r).drop p = r :=
  List.drop_left' (by simp)

/-- C7: for every rectangular input of shape `(d, t)` (with at least one row)
and every `n_steps ≥ 1`, `delay ≥ 1`, the output of `stack_memory` has shape
exactly `(n_steps * d, t)`. -/
theorem stack_memory_shape (data : Mat) (t : ℕ) (hd : data ≠ [])
    (hrect : ∀ r ∈ data, r.length = t) (n dl : ℕ) (hn : 1 ≤ n) (hdl : 1 ≤ dl) :
    ∃ out, stack_memory data (n : ℤ) (dl : ℤ) = .ok out ∧
      out.length = n * data.length ∧ ∀ r ∈ out, r.length = t := by
  have hplen : ∀ r ∈ data,
      ((fun p row => List.replicate p (0:ℚ) ++ row) ((n - 1) * dl) r).length
        = (n - 1) * dl + t := by
    intro r hr
    rw [padZero_length, hrect r hr]
  refine ⟨_, stack_memory_with_eq _ data t hd hrect n dl hn hdl hplen, ?_, ?_⟩
  · rw [List.length_flatten, List.map_map]
    have : ∀ j ∈ List.range n,
        ((List.length ∘ fun j => data.map (fun r =>
          ((List.replicate ((n-1)*dl) (0:ℚ) ++ r).drop ((n - 1 - j) * dl)).take t)) j)
          = data.length := by
      intro j _
      simp [Function.comp]
    rw [List.map_congr_left this, List.map_const', List.length_range, List.sum_replicate,
      smul_eq_mul]
  · intro r hr
    rw [List.mem_flatten] at hr
    obtain ⟨b, hb, hrb⟩ := hr
    obtain ⟨j, hj, rfl⟩ := List.mem_map.mp hb
    rw [List.mem_range] at hj
    exact stack_memory_block_shape (fun p row => List.replicate p (0:ℚ) ++ row)
      data t n dl hplen j hj r hrb

/-- C7 witness at a concrete input. -/
theorem stack_memory_shape_witness :
    ∃ out, stack_memory [[(1:ℚ), 2, 3], [4, 5, 6]] 3 2 = .ok out ∧
      out.length = 3 * 2 ∧ ∀ r ∈ out, r.length = 3 :=
  stack_memory_shape [[(1:ℚ), 2, 3], [4, 5, 6]] 3 (by decide)
    (by decide) 3 2 (by decide) (by decide)

/-- C9: `stack_memory` with `n_steps = 1` returns the (2-D reshaped) input
unchanged, for any `delay ≥ 1`: no padding is added and no lagged copy is
stacked. -/
theorem stack_memory_identity (data : Mat) (t : ℕ) (hd : data ≠ [])
    (hrect : ∀ r ∈ data, r.length = t) (dl : ℤ) (hdl : 1 ≤ dl) :
    stack_memory data 1 dl = .ok data := by
  have hdl' : dl = ((dl.toNat : ℕ) : ℤ) := (Int.toNat_of_nonneg (by omega)).symm
  have hgoal : stack_memory data 1 dl
      = stack_memory_with (fun p row => List.replicate p (0:ℚ) ++ row)
          data ((1 : ℕ) : ℤ) ((dl.toNat : ℕ) : ℤ) := by
    rw [stack_memory, ← hdl']
    rfl
  rw [hgoal, stack_memory_with_eq (fun p row => List.replicate p (0:ℚ) ++ row)
    data t hd hrect 1 dl.toNat (le_refl 1) (by omega)
    (by intro r hr; rw [padZero_length, hrect r hr])]
  have hblock : ∀ r ∈ data,
      ((List.replicate ((1-1)*dl.toNat) (0:ℚ) ++ r).drop ((1 - 1 - 0) * dl.toNat)).take t
        = r := by
    intro r hr
    simp [← hrect r hr]
  rw [show List.range 1 = [0] from rfl]
  simp only [List.map_cons, List.map_nil, List.flatten, List.append_nil]
  rw [List.map_congr_left hblock, List.map_id']

/-- C9 witness at a concrete input. -/
theorem stack_memory_identity_witness :
    stack_memory [[(5:ℚ), 7], [1, 2]] 1 3 = .ok [[(5:ℚ), 7], [1, 2]] :=
  stack_memory_identity [[(5:ℚ), 7], [1, 2]] 2 (by decide) (by decide) 3 (by decide)

/-- C5: `stack_memory` on the 1-D input `[-3,-2,-1,0,1,2]` with
`n_steps = 3`, `delay = 1` and the default constant-zero padding returns
exactly the matrix from the docstring example. -/
theorem stack_memory_example :
    stack_memory1 [-3, -2, -1, 0, 1, 2] 3 1 =
      .ok [[-3, -2, -1, 0, 1, 2], [0, -3, -2, -1, 0, 1], [0, 0, -3, -2, -1, 0]] := by
  decide

/-- C1 counterexample: for the 1-D input `[1, 2]` with `n_steps = 2`,
`delay = 1`, column 1 of the output read top to bottom is `[2, 1]` — the
current frame `data[:, 1] = 2` at the top — and not
`[data[:, 0], data[:, 1]] = [1, 2]` with the oldest lag at the top, as the
claim states; in particular the bottom row of column 1 is `1`, not
`data[:, 1] = 2`. -/
theorem stack_memory_column_read_cex :
    stack_memory1 [1, 2] 2 1 = .ok [[1, 2], [0, 1]] ∧
      column [[1, 2], [0, 1]] 1 = [2, 1] ∧ ([(2:ℚ), 1] ≠ [1, 2]) := by
  refine ⟨by decide, by decide, by decide⟩

/-- C1 (amended): for every rectangular 1-D-or-2-D input (d rows of width t),
every `n_steps ≥ 1` and `delay ≥ 1`, and every left-pad policy `padfn` that
prepends `p` pad entries to a row, column `i < t` of
`stack_memory`, read top to bottom in blocks of `d` rows, has as its block
`j` the column `data[:, i - j*delay]` — the current frame (`j = 0`) at the
TOP and the oldest lag (`j = n_steps - 1`) at the BOTTOM — with out-of-range
column indices resolved by the pad policy (block `j` of column `i < j*delay`
reads entry `(n_steps-1)*delay - j*delay + i` of the padded row); in
particular the top `d` rows of every column `i` equal `data[:, i]` exactly. -/
theorem stack_memory_column_read (padfn : ℕ → List ℚ → List ℚ) (data : Mat)
    (t : ℕ) (hd : data ≠ []) (hrect : ∀ r ∈ data, r.length = t)
    (n dl : ℕ) (hn : 1 ≤ n) (hdl : 1 ≤ dl)
    (hplen : ∀ r ∈ data, (padfn ((n - 1) * dl) r).length = (n - 1) * dl + t)
    (hpdrop : ∀ r ∈ data, (padfn ((n - 1) * dl) r).drop ((n - 1) * dl) = r)
    (i j : ℕ) (hi : i < t) (hj : j < n) :
    ∃ out, stack_memory_with padfn data (n : ℤ) (dl : ℤ) = .ok out ∧
      out.length = n * data.length ∧
      column ((out.drop (j * data.length)).take data.length) i
        = (if j * dl ≤ i
           then column data (i - j * dl)
           else data.map (fun r =>
             (padfn ((n - 1) * dl) r).getD ((n - 1) * dl - j * dl + i) 0)) ∧
      column (out.take data.length) i = column data i := by
  have heq := stack_memory_with_eq padfn data t hd hrect n dl hn hdl hplen
  set p := (n - 1) * dl with hp
  set blocks := (List.range n).map (fun j =>
    data.map (fun r => ((padfn p r).drop ((n - 1 - j) * dl)).take t)) with hblocks
  have hbl : ∀ b ∈ blocks, b.length = data.length := by
    intro b hb
    obtain ⟨j', _, rfl⟩ := List.mem_map.mp hb
    exact List.length_map _ _
  have hlen : blocks.flatten.length = n * data.length := by
    rw [List.length_flatten, hblocks, List.map_map]
    have : ∀ x ∈ List.range n,
        (List.length ∘ fun j => data.map (fun r =>
          ((padfn p r).drop ((n - 1 - j) * dl)).take t)) x = data.length := by
      intro x _
      simp [Function.comp]
    rw [List.map_congr_left this, List.map_const', List.length_range,
      List.sum_replicate, smul_eq_mul]
  -- the block `j` (from the top) of the output
  have hblockj : ∀ j' < n, (blocks.flatten.drop (j' * data.length)).take data.length
      = data.map (fun r => ((padfn p r).drop ((n - 1 - j') * dl)).take t) := by
    intro j' hj'
    rw [flatten_drop_take blocks data.length hbl j' (by simp [hblocks, hj'])]
    rw [hblocks, List.getD_eq_getElem?_getD, List.getElem?_map,
      List.getElem?_range hj']
    rfl
  -- reading column i of block j'
  have hcol : ∀ j' < n, column ((blocks.flatten.drop (j' * data.length)).take
      data.length) i = data.map (fun r => (padfn p r).getD ((n - 1 - j') * dl + i) 0) := by
    intro j' hj'
    rw [hblockj j' hj', column, List.map_map]
    apply List.map_congr_left
    intro r _
    simp only [Function.comp]
    exact getD_drop_take hi
  -- a padded row read at an index past the pad is the row itself
  have hread : ∀ r ∈ data, ∀ m : ℕ, (padfn p r).getD (p + m) 0 = r.getD m 0 := by
    intro r hr m
    conv_rhs => rw [← hpdrop r hr]
    rw [List.getD_eq_getElem?_getD, List.getD_eq_getElem?_getD, List.getElem?_drop]
  refine ⟨blocks.flatten, heq, hlen, ?_, ?_⟩
  · rw [hcol j hj]
    by_cases hle : j * dl ≤ i
    · rw [if_pos hle, column]
      apply List.map_congr_left
      intro r hr
      have harith : (n - 1 - j) * dl + i = p + (i - j * dl) := by
        have hsub : (n - 1 - j) * dl = (n - 1) * dl - j * dl := Nat.sub_mul (n - 1) j dl
        have hjle : j * dl ≤ (n - 1) * dl := Nat.mul_le_mul_right _ (by omega)
        omega
      rw [harith, hread r hr]
    · rw [if_neg hle]
      apply List.map_congr_left
      intro r _
      congr 1
      have hsub : (n - 1 - j) * dl = (n - 1) * dl - j * dl := Nat.sub_mul (n - 1) j dl
      have hjle : j * dl ≤ (n - 1) * dl := Nat.mul_le_mul_right _ (by omega)
      omega
  · have h0 := hcol 0 (by omega)
    rw [Nat.zero_mul, List.drop_zero] at h0
    rw [h0, column]
    apply List.map_congr_left
    intro r hr
    have harith : (n - 1 - 0) * dl + i = p + i := by rw [Nat.sub_zero, hp]
    rw [harith, hread r hr]

/-- C1 witness at a concrete input (block `j = 1` of column 1 for a 2-row
input stacked with `n_steps = 2`, `delay = 1`, default zero padding). -/
theorem stack_memory_column_read_witness :
    ∃ out, stack_memory_with (fun p row => List.replicate p (0:ℚ) ++ row)
        [[(1:ℚ), 2], [3, 4]] (2 : ℤ) (1 : ℤ) = .ok out ∧
      out.length = 2 * 2 ∧
      column ((out.drop (1 * 2)).take 2) 1
        = (if 1 * 1 ≤ 1
           then column [[(1:ℚ), 2], [3, 4]] (1 - 1 * 1)
           else [[(1:ℚ), 2], [3, 4]].map (fun r =>
             ((fun p row => List.replicate p (0:ℚ) ++ row) ((2 - 1) * 1) r).getD
               ((2 - 1) * 1 - 1 * 1 + 1) 0)) ∧
      column (out.take 2) 1 = column [[(1:ℚ), 2], [3, 4]] 1 :=
  stack_memory_column_read (fun p row => List.replicate p (0:ℚ) ++ row)
    [[(1:ℚ), 2], [3, 4]] 2 (by decide) (by decide) 2 1 (by decide) (by decide)
    (by
      intro r hr
      rcases List.mem_cons.mp hr with h | hr2
      · subst h; rfl
      · rcases List.mem_cons.mp hr2 with h | hr3
        · subst h; rfl
        · simp at hr3)
    (by intro r hr; exact padZero_drop _ r)
    1 1 (by decide) (by decide)

/-! ### delta: shape lemmas -/

/-- `lfilter` preserves the length of its input (as `scipy.signal.lfilter`
preserves shape). -/
theorem lfilter_length (b x : List ℚ) : (lfilter b x).length = x.length := by
  simp [lfilter]

/-- Iterating `lfilter` preserves the length. -/
theorem foldl_lfilter_length (b : List ℚ) (l : List ℕ) (acc : List ℚ) :
    (l.foldl (fun a _ => lfilter b a) acc).length = acc.length := by
  induction l generalizing acc with
  | nil => rfl
  | cons i l ih => rw [List.foldl_cons, ih, lfilter_length]

/-- Edge padding adds `w` entries on each side. -/
theorem pad_edge_length (w : ℕ) (x : List ℚ) :
    (pad_edge w x).length = x.length + 2 * w := by
  simp [pad_edge]
  ring

/-- Length of the 1-D delta pipeline: the input length if trimmed, otherwise
the input length plus `2 * width`. -/
theorem delta1core_length (x : List ℚ) (width order : ℕ) (trim : Bool)
    (hw : 3 ≤ width) :
    (delta1core x width order trim).length
      = if trim then x.length else x.length + 2 * width := by
  have hlen : ((List.range order).foldl
      (fun acc _ => lfilter (delta_window width) acc) (pad_edge width x)).length
      = x.length + 2 * width := by
    rw [foldl_lfilter_length, pad_edge_length]
  cases trim with
  | false => simpa [delta1core] using hlen
  | true =>
      simp only [delta1core, if_true, List.length_drop, List.length_take, hlen]
      omega

/-- Trimming is the Python slice `[-half_length - L : -half_length]` applied
to the untrimmed pipeline output. -/
theorem delta1core_trim_eq (x : List ℚ) (width order : ℕ) :
    delta1core x width order true
      = ((delta1core x width order false).take
          ((delta1core x width order false).length - (1 + width / 2))).drop
          ((delta1core x width order false).length - (1 + width / 2) - x.length) := by
  simp [delta1core]

/-- `transposeRect t` produces `t` rows. -/
theorem transposeRect_length (t : ℕ) (m : Mat) : (transposeRect t m).length = t := by
  simp [transposeRect]

/-- Each row of `transposeRect t m` has one entry per row of `m`. -/
theorem transposeRect_row_length (t : ℕ) (m : Mat) :
    ∀ r ∈ transposeRect t m, r.length = m.length := by
  intro r hr
  obtain ⟨j, _, rfl⟩ := List.mem_map.mp hr
  simp

/-- Row `k < t` of `transposeRect t m` is column `k` of `m`. -/
theorem transposeRect_getD (t : ℕ) (m : Mat) (k : ℕ) (hk : k < t) :
    (transposeRect t m).getD k [] = m.map (fun r => r.getD k 0) := by
  rw [transposeRect, List.getD_eq_getElem?_getD, List.getElem?_map,
    List.getElem?_range hk]
  rfl

/-- Reading entry `k < L` of the trim window `[-h - L : -h]` of a list. -/
theorem getD_trim_window {f : List ℚ} {h L k : ℕ}
    (hk : k < L) (hLM : L + h ≤ f.length) :
    ((f.take (f.length - h)).drop (f.length - h - L)).getD k 0
      = f.getD (f.length - h - L + k) 0 := by
  rw [List.getD_eq_getElem?_getD, List.getD_eq_getElem?_getD, List.getElem?_drop,
    List.getElem?_take, if_pos (by omega)]

/-- The default head of a nonempty list of uniform-length rows has that length. -/
theorem headD_length_of_all {L : List (List ℚ)} {c : ℕ} (hne : L ≠ [])
    (hall : ∀ r ∈ L, r.length = c) : (L.headD []).length = c := by
  cases L with
  | nil => exact absurd rfl hne
  | cons a l => exact hall a (by simp)

/-- Unfolding `delta2` along `axis = 1` once validation passes. -/
theorem delta2_eq_axis1 (m : Mat) (width : ℕ) (order : ℤ) (trim : Bool)
    (hw : 3 ≤ width) (hodd : width % 2 = 1) (ho : 1 ≤ order) :
    delta2 m width order 1 trim
      = .ok (m.map (fun lane => delta1core lane width order.toNat trim)) := by
  unfold delta2
  rw [if_neg (by omega), if_neg (by omega), if_pos rfl]

/-- Unfolding `delta2` along `axis = 0` once validation passes. -/
theorem delta2_eq_axis0 (m : Mat) (width : ℕ) (order : ℤ) (trim : Bool)
    (hw : 3 ≤ width) (hodd : width % 2 = 1) (ho : 1 ≤ order) :
    delta2 m width order 0 trim
      = .ok (transposeRect
          ((((transposeRect ((m.headD []).length) m).map
            (fun lane => delta1core lane width order.toNat trim)).headD []).length)
          ((transposeRect ((m.headD []).length) m).map
            (fun lane => delta1core lane width order.toNat trim))) := by
  unfold delta2
  rw [if_neg (by omega), if_neg (by omega), if_neg (by decide)]

/-- C6: for every rectangular nonempty input of shape `(d, t)`, every valid
`width` and `order`, and every valid axis: with `trim = true` the output of
`delta` has exactly the shape of the input, and it is the Python slice
`[-half_length - L : -half_length]` (with `L` the input extent along the
axis) of the untrimmed padded-and-filtered output; with `trim = false` the
output extent along the axis is `L + 2 * width`. -/
theorem delta_shape (m : Mat) (d t : ℕ) (hmd : m.length = d) (hd1 : 1 ≤ d)
    (hrect : ∀ r ∈ m, r.length = t) (ht1 : 1 ≤ t)
    (width : ℕ) (order : ℤ) (hw : 3 ≤ width) (hodd : width % 2 = 1)
    (ho : 1 ≤ order) (axis : Fin 2) (trim : Bool) :
    ∃ out, delta2 m width order axis trim = .ok out ∧
      out.length = (if axis = 0 ∧ trim = false then d + 2 * width else d) ∧
      (∀ r ∈ out, r.length = (if axis = 1 ∧ trim = false then t + 2 * width else t)) ∧
      (trim = true → ∃ full, delta2 m width order axis false = .ok full ∧
        (axis = 1 → out = full.map (fun lane =>
          (lane.take (lane.length - (1 + width / 2))).drop
            (lane.length - (1 + width / 2) - t))) ∧
        (axis = 0 → out = (full.take (full.length - (1 + width / 2))).drop
            (full.length - (1 + width / 2) - d))) := by
  have hvalid : ¬(width < 3 ∨ width % 2 ≠ 1) := by omega
  have hord : ¬(order ≤ 0) := by omega
  have hm : m ≠ [] := by
    intro h
    rw [h] at hmd
    simp at hmd
    omega
  have hhead : (m.headD []).length = t := headD_length_of_all hm hrect
  by_cases hax : axis = 1
  · -- axis = 1: per-row lanes
    subst hax
    refine ⟨m.map (fun lane => delta1core lane width order.toNat trim),
      delta2_eq_axis1 m width order trim hw hodd ho, ?_, ?_, ?_⟩
    · simp [hmd]
    · intro r hr
      obtain ⟨lane, hlane, rfl⟩ := List.mem_map.mp hr
      rw [delta1core_length lane width order.toNat trim hw, hrect lane hlane]
      cases trim <;> simp
    · intro htrim
      subst htrim
      refine ⟨m.map (fun lane => delta1core lane width order.toNat false),
        delta2_eq_axis1 m width order false hw hodd ho, fun _ => ?_,
        fun h0 => absurd h0 (by decide)⟩
      rw [List.map_map]
      apply List.map_congr_left
      intro r hr
      simp only [Function.comp]
      rw [delta1core_trim_eq r width order.toNat, ← hrect r hr]
  · -- axis = 0: per-column lanes via transposition
    have hax0 : axis = 0 := by fin_omega
    subst hax0
    have hout : delta2 m width order 0 trim
        = .ok (transposeRect
            ((((transposeRect t m).map
              (fun lane => delta1core lane width order.toNat trim)).headD []).length)
            ((transposeRect t m).map
              (fun lane => delta1core lane width order.toNat trim))) := by
      rw [delta2_eq_axis0 m width order trim hw hodd ho, hhead]
    have hlane_len : ∀ lane ∈ transposeRect t m, lane.length = d := by
      intro lane hlane
      rw [transposeRect_row_length t m lane hlane, hmd]
    have hmapped_each : ∀ r ∈ (transposeRect t m).map
        (fun lane => delta1core lane width order.toNat trim),
        r.length = (if trim then d else d + 2 * width) := by
      intro r hr
      obtain ⟨lane, hlane, rfl⟩ := List.mem_map.mp hr
      rw [delta1core_length lane width order.toNat trim hw, hlane_len lane hlane]
    have hmapped_ne : ((transposeRect t m).map
        (fun lane => delta1core lane width order.toNat trim)) ≠ [] := by
      intro h
      have := congrArg List.length h
      simp [transposeRect_length] at this
      omega
    have hD : (((transposeRect t m).map
        (fun lane => delta1core lane width order.toNat trim)).headD []).length
        = (if trim then d else d + 2 * width) :=
      headD_length_of_all hmapped_ne hmapped_each
    rw [hD] at hout
    refine ⟨_, hout, ?_, ?_, ?_⟩
    · rw [transposeRect_length]
      cases trim <;> simp
    · intro r hr
      rw [transposeRect_row_length _ _ r hr, List.length_map, transposeRect_length]
      simp
    · intro htrim
      subst htrim
      simp only [reduceIte]
      -- untrimmed run for the relation conjunct
      have hout' : delta2 m width order 0 false
          = .ok (transposeRect (d + 2 * width)
              ((transposeRect t m).map
                (fun lane => delta1core lane width order.toNat false))) := by
        have hD' : (((transposeRect t m).map
            (fun lane => delta1core lane width order.toNat false)).headD []).length
            = d + 2 * width := by
          refine headD_length_of_all ?_ ?_
          · intro h
            have := congrArg List.length h
            simp [transposeRect_length] at this
            omega
          · intro r hr
            obtain ⟨lane, hlane, rfl⟩ := List.mem_map.mp hr
            rw [delta1core_length lane width order.toNat false hw, hlane_len lane hlane]
            simp
        rw [delta2_eq_axis0 m width order false hw hodd ho, hhead, hD']
      refine ⟨_, hout', fun h1 => absurd h1 (by decide), fun _ => ?_⟩
      have hh2w : 1 + width / 2 ≤ 2 * width := by omega
      set h := 1 + width / 2 with hhdef
      set FM := (transposeRect t m).map
        (fun lane => delta1core lane width order.toNat false) with hFM
      set TM := (transposeRect t m).map
        (fun lane => delta1core lane width order.toNat true) with hTM
      have hfull_len : (transposeRect (d + 2 * width) FM).length = d + 2 * width :=
        transposeRect_length _ _
      apply List.ext_getElem
      · simp only [if_true, transposeRect_length, List.length_drop, List.length_take,
          hfull_len]
        omega
      · intro k hk1 hk2
        simp only [if_true, transposeRect_length] at hk1
        rw [List.getElem_drop, List.getElem_take]
        have hidx : d + 2 * width - h - d + k < d + 2 * width := by
          omega
        rw [← List.getD_eq_getElem _ [] (by rw [transposeRect_length]; exact hk1),
          ← List.getD_eq_getElem _ []
            (by rw [transposeRect_length]; exact hidx)]
        rw [hfull_len, transposeRect_getD _ _ _ hk1, transposeRect_getD _ _ _ hidx]
        rw [hTM, hFM, List.map_map, List.map_map]
        apply List.map_congr_left
        intro lane hlane
        simp only [Function.comp]
        have hlen_false : (delta1core lane width order.toNat false).length
            = d + 2 * width := by
          rw [delta1core_length lane width order.toNat false hw, hlane_len lane hlane]
          simp
        rw [delta1core_trim_eq lane width order.toNat, hlane_len lane hlane]
        rw [getD_trim_window (by omega) (by omega)]
        congr 1
        rw [hlen_false]

/-- C6 witness at a concrete input (shape preserved with trim on a 1-by-2
matrix, width 3, order 1, axis 1). -/
theorem delta_shape_witness :
    ∃ out, delta2 [[(1:ℚ), 2]] 3 1 1 true = .ok out ∧
      out.length = (if (1 : Fin 2) = 0 ∧ true = false then 1 + 2 * 3 else 1) ∧
      (∀ r ∈ out, r.length = (if (1 : Fin 2) = 1 ∧ true = false then 2 + 2 * 3 else 2)) ∧
      (true = true → ∃ full, delta2 [[(1:ℚ), 2]] 3 1 1 false = .ok full ∧
        ((1 : Fin 2) = 1 → out = full.map (fun lane =>
          (lane.take (lane.length - (1 + 3 / 2))).drop
            (lane.length - (1 + 3 / 2) - 2))) ∧
        ((1 : Fin 2) = 0 → out = (full.take (full.length - (1 + 3 / 2))).drop
            (full.length - (1 + 3 / 2) - 1))) :=
  delta_shape [[(1:ℚ), 2]] 1 2 rfl (by decide)
    (by intro r hr; rw [List.mem_singleton.mp hr]; rfl) (by decide)
    3 1 (by decide) (by decide) (by decide) 1 true

/-! ### delta: the regression window (C2) and constant inputs (C8) -/

/-- Summing a function over `List.range` is summing over `Finset.range`. -/
theorem list_range_map_sum (f : ℕ → ℚ) (n : ℕ) :
    ((List.range n).map f).sum = ∑ k in Finset.range n, f k := by
  induction n with
  | zero => simp
  | succ n ih =>
      rw [List.range_succ, List.map_append, List.sum_append, Finset.sum_range_succ, ih]
      simp

/-- Gauss sum in `ℚ`. -/
theorem sum_range_id_q (n : ℕ) :
    (∑ k in Finset.range n, (k : ℚ)) = n * (n - 1) / 2 := by
  induction n with
  | zero => simp
  | succ n ih =>
      rw [Finset.sum_range_succ, ih]
      push_cast
      ring

/-- Sum of squares in `ℚ`. -/
theorem sum_range_sq_q (n : ℕ) :
    (∑ k in Finset.range n, (k : ℚ)^2) = n * (n - 1) * (2 * n - 1) / 6 := by
  induction n with
  | zero => simp
  | succ n ih =>
      rw [Finset.sum_range_succ, ih]
      push_cast
      ring

/-- The descending ramp `half_length-1, ..., -(half_length-1)` sums to zero. -/
theorem ramp_sum_zero (h : ℕ) (hh : 1 ≤ h) :
    (∑ k in Finset.range (2 * h - 1), ((h : ℚ) - 1 - k)) = 0 := by
  rw [Finset.sum_sub_distrib, Finset.sum_const, Finset.card_range, sum_range_id_q,
    nsmul_eq_mul]
  have hcast : ((2 * h - 1 : ℕ) : ℚ) = 2 * (h : ℚ) - 1 := by
    push_cast [Nat.cast_sub (by omega : 1 ≤ 2 * h)]
    ring
  rw [hcast]
  ring

/-- Closed form of the sum of squares of the ramp window. -/
theorem ramp_energy (h : ℕ) (hh : 1 ≤ h) :
    (∑ k in Finset.range (2 * h - 1), ((h : ℚ) - 1 - k)^2)
      = ((h : ℚ) - 1) * h * (2 * h - 1) / 3 := by
  have hexp : ∀ k ∈ Finset.range (2 * h - 1),
      ((h : ℚ) - 1 - k)^2 = (((h:ℚ)-1)^2 - 2*((h:ℚ)-1)*(k:ℚ)) + (k:ℚ)^2 := by
    intro k _
    ring
  rw [Finset.sum_congr rfl hexp, Finset.sum_add_distrib, Finset.sum_sub_distrib,
    Finset.sum_const, Finset.card_range, nsmul_eq_mul, ← Finset.mul_sum,
    sum_range_id_q, sum_range_sq_q]
  have hcast : ((2 * h - 1 : ℕ) : ℚ) = 2 * (h : ℚ) - 1 := by
    push_cast [Nat.cast_sub (by omega : 1 ≤ 2 * h)]
    ring
  rw [hcast]
  ring

/-- The window has length `2 * half_length - 1`. -/
theorem delta_window_length (width : ℕ) :
    (delta_window width).length = 2 * (1 + width / 2) - 1 := by
  simp [delta_window]

/-- C2: for every odd `width ≥ 3`, with `half_length = 1 + width/2`, the
regression window has length `2*half_length - 1`; its entry at position `k`
is the ramp value `half_length - 1 - k` divided by the sum of squares of the
ramp (L2-energy normalization), and that energy is positive (and equals
`(half_length-1)*half_length*(2*half_length-1)/3`). -/
theorem delta_window_spec (width : ℕ) (hw : 3 ≤ width) (hodd : width % 2 = 1) :
    (delta_window width).length = 2 * (1 + width / 2) - 1 ∧
    (∀ k < 2 * (1 + width / 2) - 1,
      (delta_window width).getD k 0
        = ((((1 + width / 2 : ℕ)) : ℚ) - 1 - k)
          / (∑ j in Finset.range (2 * (1 + width / 2) - 1),
              ((((1 + width / 2 : ℕ)) : ℚ) - 1 - j)^2)) ∧
    (∑ j in Finset.range (2 * (1 + width / 2) - 1),
        ((((1 + width / 2 : ℕ)) : ℚ) - 1 - j)^2)
      = (((1 + width / 2 : ℕ) : ℚ) - 1) * ((1 + width / 2 : ℕ) : ℚ)
          * (2 * ((1 + width / 2 : ℕ) : ℚ) - 1) / 3 ∧
    0 < (∑ j in Finset.range (2 * (1 + width / 2) - 1),
          ((((1 + width / 2 : ℕ)) : ℚ) - 1 - j)^2) := by
  have hh : 1 ≤ 1 + width / 2 := by omega
  have hh2 : 2 ≤ 1 + width / 2 := by omega
  have henergy := ramp_energy (1 + width / 2) hh
  have hE : ((List.range (2 * (1 + width / 2) - 1)).map
      (fun k : ℕ => (((1 + width / 2 : ℕ) : ℚ) - 1 - (k : ℚ))^2)).sum
      = ∑ j in Finset.range (2 * (1 + width / 2) - 1),
          ((((1 + width / 2 : ℕ)) : ℚ) - 1 - j)^2 :=
    list_range_map_sum _ _
  refine ⟨delta_window_length width, ?_, henergy, ?_⟩
  · intro k hk
    rw [delta_window]
    simp only [List.map_map]
    rw [List.getD_eq_getElem?_getD, List.getElem?_map, List.getElem?_range hk]
    simp only [Option.map_some', Option.getD_some, Function.comp]
    congr 1
  · rw [henergy]
    have h1 : (1 : ℚ) ≤ ((1 + width / 2 : ℕ) : ℚ) - 1 := by
      have : ((2 : ℕ) : ℚ) ≤ ((1 + width / 2 : ℕ) : ℚ) := by
        exact_mod_cast hh2
      push_cast at this ⊢
      linarith
    have h2 : (0 : ℚ) < ((1 + width / 2 : ℕ) : ℚ) := by
      exact_mod_cast Nat.lt_of_lt_of_le (by omega) hh
    have h3 : (0 : ℚ) < 2 * ((1 + width / 2 : ℕ) : ℚ) - 1 := by linarith
    positivity

/-- C2 witness at `width = 5`. -/
theorem delta_window_spec_witness :
    (delta_window 5).length = 2 * (1 + 5 / 2) - 1 ∧
    (∀ k < 2 * (1 + 5 / 2) - 1,
      (delta_window 5).getD k 0
        = ((((1 + 5 / 2 : ℕ)) : ℚ) - 1 - k)
          / (∑ j in Finset.range (2 * (1 + 5 / 2) - 1),
              ((((1 + 5 / 2 : ℕ)) : ℚ) - 1 - j)^2)) ∧
    (∑ j in Finset.range (2 * (1 + 5 / 2) - 1),
        ((((1 + 5 / 2 : ℕ)) : ℚ) - 1 - j)^2)
      = (((1 + 5 / 2 : ℕ) : ℚ) - 1) * ((1 + 5 / 2 : ℕ) : ℚ)
          * (2 * ((1 + 5 / 2 : ℕ) : ℚ) - 1) / 3 ∧
    0 < (∑ j in Finset.range (2 * (1 + 5 / 2) - 1),
          ((((1 + 5 / 2 : ℕ)) : ℚ) - 1 - j)^2) :=
  delta_window_spec 5 (by decide) (by decide)

/-- Reading a list back out of `List.range` and `getD`. -/
theorem map_getD_range (l : List ℚ) :
    (List.range l.length).map (fun k => l.getD k 0) = l := by
  apply List.ext_getElem (by simp)
  intro n h1 h2
  rw [List.getElem_map, List.getElem_range, List.getD_eq_getElem]

/-- The sum of the normalized delta window is zero. -/
theorem delta_window_sum (width : ℕ) (hw : 3 ≤ width) :
    (delta_window width).sum = 0 := by
  rw [delta_window]
  simp only [div_eq_mul_inv]
  set W := (List.range (2 * (1 + width / 2) - 1)).map
    (fun k : ℕ => (((1 + width / 2 : ℕ)) : ℚ) - 1 - (k : ℚ)) with hW
  have hmul := List.sum_map_mul_right W (fun x => x)
    ((W.map (fun x => x ^ 2)).sum)⁻¹
  simp only [List.map_id'] at hmul
  rw [hmul]
  have hzero : W.sum = 0 := by
    rw [hW, list_range_map_sum]
    exact ramp_sum_zero (1 + width / 2) (by omega)
  rw [hzero, zero_mul]

/-- Entry `n < x.length` of `lfilter b x` is the convolution sum. -/
theorem lfilter_getD (b x : List ℚ) (n : ℕ) (hn : n < x.length) :
    (lfilter b x).getD n 0
      = ((List.range b.length).map (fun k =>
          b.getD k 0 * (if k ≤ n then x.getD (n - k) 0 else 0))).sum := by
  rw [lfilter, List.getD_eq_getElem?_getD, List.getElem?_map, List.getElem?_range hn]
  rfl

/-- If the input is zero from index `m` on, the filter output is zero from
index `m + (b.length - 1)` on (the filter has memory `b.length - 1`). -/
theorem lfilter_zero_from (b x : List ℚ) (m : ℕ)
    (hx : ∀ i, m ≤ i → x.getD i 0 = 0) :
    ∀ n, m + (b.length - 1) ≤ n → (lfilter b x).getD n 0 = 0 := by
  intro n hn
  by_cases hnx : n < x.length
  · rw [lfilter_getD b x n hnx]
    apply List.sum_eq_zero
    intro q hq
    obtain ⟨k, hk, rfl⟩ := List.mem_map.mp hq
    rw [List.mem_range] at hk
    by_cases hkn : k ≤ n
    · rw [if_pos hkn, hx (n - k) (by omega), mul_zero]
    · rw [if_neg hkn, mul_zero]
  · rw [List.getD_eq_getElem?_getD,
      List.getElem?_eq_none (by rw [lfilter_length]; omega)]
    rfl

/-- Filtering a constant list by a window summing to zero yields zero at all
indices past the filter warm-up `b.length - 1`. -/
theorem lfilter_const_zero_from (b : List ℚ) (c : ℚ) (M : ℕ) (hbs : b.sum = 0) :
    ∀ n, b.length - 1 ≤ n → (lfilter b (List.replicate M c)).getD n 0 = 0 := by
  intro n hn
  by_cases hnM : n < M
  · rw [lfilter_getD _ _ n (by simpa using hnM)]
    have hconst : ∀ k ∈ List.range b.length,
        b.getD k 0 * (if k ≤ n then (List.replicate M c).getD (n - k) 0 else 0)
          = b.getD k 0 * c := by
      intro k hk
      rw [List.mem_range] at hk
      rw [if_pos (by omega)]
      congr 1
      rw [List.getD_eq_getElem?_getD, List.getElem?_replicate, if_pos (by omega)]
      rfl
    rw [List.map_congr_left hconst, List.sum_map_mul_right, map_getD_range, hbs,
      zero_mul]
  · rw [List.getD_eq_getElem?_getD,
      List.getElem?_eq_none (by rw [lfilter_length]; simp; omega)]
    rfl

/-- Folding a constant function over `List.range r` is `r`-fold iteration. -/
theorem foldl_range_const {α : Type} (g : α → α) (x : α) (r : ℕ) :
    (List.range r).foldl (fun a _ => g a) x = g^[r] x := by
  induction r generalizing x with
  | zero => rfl
  | succ r ih =>
      rw [List.range_succ, List.foldl_append, ih]
      simp [Function.iterate_succ_apply']

/-- Iterating the filter `r` times on an input that is zero from `m` on gives
an output that is zero from `m + r * (b.length - 1)` on. -/
theorem iterate_lfilter_zero_from (b : List ℚ) (r : ℕ) (x : List ℚ) (m : ℕ)
    (hx : ∀ i, m ≤ i → x.getD i 0 = 0) :
    ∀ i, m + r * (b.length - 1) ≤ i → ((lfilter b)^[r] x).getD i 0 = 0 := by
  induction r generalizing x m with
  | zero =>
      intro i hi
      exact hx i (by omega)
  | succ r ih =>
      intro i hi
      rw [Function.iterate_succ_apply]
      have harith : m + (r + 1) * (b.length - 1)
          = (m + (b.length - 1)) + r * (b.length - 1) := by ring
      exact ih (lfilter b x) (m + (b.length - 1)) (lfilter_zero_from b x m hx) i
        (by omega)

/-- Edge padding of a nonempty constant lane is a longer constant lane. -/
theorem pad_edge_replicate (w L : ℕ) (c : ℚ) (hL : 1 ≤ L) :
    pad_edge w (List.replicate L c) = List.replicate (L + 2 * w) c := by
  rw [pad_edge]
  have hhead : (List.replicate L c).headD 0 = c := by
    cases L with
    | zero => omega
    | succ l => rfl
  have hlast : (List.replicate L c).getLastD 0 = c := by
    cases L with
    | zero => omega
    | succ l => rw [List.replicate_succ', List.getLastD_concat]
  rw [hhead, hlast, show L + 2 * w = w + (L + w) by ring, List.replicate_add,
    List.replicate_add, List.append_assoc]

/-- C8 counterexample: `delta` of the constant signal `[1]` with `width = 3`,
`order = 3`, `trim = true` evaluates, in exact rational arithmetic, to
`[1/8]`, which is not the all-zero array: the filter's zero initial history
leaks into the trimmed region once `order * (2*half_length - 2)` exceeds
`2*width - half_length`. -/
theorem delta_const_zero_cex :
    delta1 [1] 3 3 true = .ok [1/8] ∧ ((1 : ℚ)/8) ≠ 0 := by
  constructor
  · have h3 : (3 : ℤ).toNat = 3 := rfl
    norm_num [delta1, delta1core, h3, delta_window, lfilter, pad_edge,
      List.range_succ, List.replicate]
  · norm_num

/-- C8 (amended): for every constant signal of length `L ≥ 1`, every odd
`width ≥ 3` and every positive `order` satisfying
`order * (2*half_length - 2) ≤ 2*width - half_length` (always true for
`order = 1`), `delta` with `trim = true` returns the all-zero array, exactly,
in rational arithmetic: the normalized ramp window sums to zero and edge
padding replicates the constant boundary value. -/
theorem delta_const_zero (L : ℕ) (hL : 1 ≤ L) (c : ℚ) (width : ℕ) (order : ℤ)
    (hw : 3 ≤ width) (hodd : width % 2 = 1) (ho : 1 ≤ order)
    (hbound : order.toNat * (2 * (1 + width / 2) - 2)
      ≤ 2 * width - (1 + width / 2)) :
    delta1 (List.replicate L c) width order true = .ok (List.replicate L 0) := by
  rw [delta1, if_neg (by omega), if_neg (by omega)]
  congr 1
  rw [delta1core]
  simp only [if_true]
  rw [List.length_replicate, pad_edge_replicate width L c hL, foldl_range_const]
  have hBval : (delta_window width).length = 2 * (1 + width / 2) - 1 :=
    delta_window_length width
  have hiterlen : ∀ (r : ℕ) (x : List ℚ),
      ((lfilter (delta_window width))^[r] x).length = x.length := by
    intro r
    induction r with
    | zero => intro x; rfl
    | succ r ih => intro x; rw [Function.iterate_succ_apply, ih, lfilter_length]
  have hFlen : ((lfilter (delta_window width))^[order.toNat]
      (List.replicate (L + 2 * width) c)).length = L + 2 * width := by
    rw [hiterlen]
    simp
  have hzero : ∀ i, order.toNat * ((delta_window width).length - 1) ≤ i →
      ((lfilter (delta_window width))^[order.toNat]
        (List.replicate (L + 2 * width) c)).getD i 0 = 0 := by
    intro i hi
    cases hr : order.toNat with
    | zero => omega
    | succ r =>
        rw [hr] at hi
        rw [Function.iterate_succ_apply]
        apply iterate_lfilter_zero_from (delta_window width) r _
          ((delta_window width).length - 1)
          (lfilter_const_zero_from (delta_window width) c (L + 2 * width)
            (delta_window_sum width hw)) i
        have hexp : (r + 1) * ((delta_window width).length - 1)
            = ((delta_window width).length - 1)
              + r * ((delta_window width).length - 1) := by ring
        omega
  have hh2w : 1 + width / 2 ≤ 2 * width := by omega
  apply List.ext_getElem
  · rw [List.length_drop, List.length_take, hFlen, List.length_replicate]
    omega
  · intro k hk1 hk2
    have hkL : k < L := by
      have hk1' := hk1
      rw [List.length_drop, List.length_take, hFlen] at hk1'
      omega
    rw [List.getElem_replicate, ← List.getD_eq_getElem _ 0 hk1,
      getD_trim_window hkL (by rw [hFlen]; omega)]
    apply hzero
    rw [hFlen]
    have hb1 : (delta_window width).length - 1 = 2 * (1 + width / 2) - 2 := by
      omega
    rw [hb1]
    omega

/-- C8 witness: `delta` of the constant signal `[5, 5]` with `width = 3`,
`order = 1`, `trim = true` is `[0, 0]`. -/
theorem delta_const_zero_witness :
    delta1 (List.replicate 2 (5:ℚ)) 3 1 true = .ok (List.replicate 2 0) :=
  delta_const_zero 2 (by decide) 5 3 1 (by decide) (by decide) (by decide)
    (by decide)

/-! ### sync (C3) -/

/-- With `pad = true`, the boundary list `[0, T]` is already normalized. -/
theorem fix_frames_pair (T : ℤ) (hT : 1 ≤ T) :
    fix_frames [0, T] 0 T true = [0, T] := by
  have hle : (0:ℤ) ≤ T := by omega
  have hnle : ¬(T ≤ (0:ℤ)) := by omega
  have hne : (0:ℤ) ≠ T := by omega
  have hne' : T ≠ (0:ℤ) := by omega
  simp [fix_frames, List.insertionSort, List.orderedInsert, hle, hnle, hne, hne',
    min_eq_left hle, max_eq_right hle, List.dedup_cons_of_mem,
    List.dedup_cons_of_not_mem]

/-- C3: for every rectangular nonempty 2-D input of shape `(d, T)` and every
boundary list, with `F` the normalized boundary list of `M` entries
(clipped/padded/deduplicated/sorted by the spec-modelled `fix_frames`),
`sync` returns a matrix of `d` rows and exactly `M - 1` columns whose column
`i` is the per-row aggregate of `data[:, F[i]:F[i+1]]`, in ascending
boundary order; in particular `sync(data, [0, T], pad=True)` is the single
column of whole-row aggregates, and a 1-D input behaves as its single-row
2-D reshape. -/
theorem sync_spec (m : Mat) (d T : ℕ) (hmd : m.length = d) (hd1 : 1 ≤ d)
    (hrect : ∀ r ∈ m, r.length = T)
    (frames : List ℤ) (agg : List ℚ → ℚ) (pad : Bool)
    (F : List ℤ) (hF : F = fix_frames frames 0 (T : ℤ) pad) :
    ∃ out, sync (Arr.a2 m) frames agg pad = .ok out ∧
      out.length = d ∧
      (∀ r ∈ out, r.length = F.length - 1) ∧
      (∀ i, i < F.length - 1 →
        column out i = m.map (fun row =>
          agg ((row.take (F.getD (i+1) 0).toNat).drop (F.getD i 0).toNat))) ∧
      (frames = [0, (T : ℤ)] → pad = true → 1 ≤ T →
        out = m.map (fun row => [agg row])) ∧
      (∀ v : List ℚ, sync (Arr.a1 v) frames agg pad
        = sync (Arr.a2 [v]) frames agg pad) := by
  have hm : m ≠ [] := by
    intro h
    rw [h] at hmd
    simp at hmd
    omega
  have hhead : (m.headD []).length = T := headD_length_of_all hm hrect
  have hout : sync (Arr.a2 m) frames agg pad
      = .ok (m.map (fun row =>
          ((fix_frames frames 0 (T : ℤ) pad).zip
            (fix_frames frames 0 (T : ℤ) pad).tail).map (fun se =>
              agg ((row.take se.2.toNat).drop se.1.toNat)))) := by
    rw [sync, if_neg (by simp [Arr.ndim])]
    simp only [atleast_2d, hhead]
  have hziplen : (F.zip F.tail).length = F.length - 1 := by
    rw [List.length_zip, List.length_tail]
    omega
  refine ⟨_, hout, by simp [hmd], ?_, ?_, ?_, ?_⟩
  · intro r hr
    obtain ⟨row, _, rfl⟩ := List.mem_map.mp hr
    rw [List.length_map, ← hF, hziplen]
  · intro i hi
    rw [column, List.map_map]
    apply List.map_congr_left
    intro row _
    simp only [Function.comp]
    have hizip : i < (F.zip F.tail).length := by omega
    rw [← hF, List.getD_eq_getElem?_getD, List.getElem?_map,
      List.getElem?_eq_getElem hizip]
    simp only [Option.map_some', Option.getD_some]
    rw [List.getElem_zip, List.getElem_tail,
      List.getD_eq_getElem _ 0 (by omega : i < F.length),
      List.getD_eq_getElem _ 0 (by omega : i + 1 < F.length)]
  · intro hfr hpad hT
    subst hfr hpad
    have hFval : fix_frames [0, (T:ℤ)] 0 (T:ℤ) true = [0, (T:ℤ)] :=
      fix_frames_pair (T : ℤ) (by exact_mod_cast hT)
    rw [hFval]
    apply List.map_congr_left
    intro row hrow
    rw [show ([(0:ℤ), (T:ℤ)].zip [(0:ℤ), (T:ℤ)].tail) = [((0:ℤ), (T:ℤ))] from rfl]
    simp only [List.map_cons, List.map_nil]
    rw [show ((T:ℤ)).toNat = T from by omega, show ((0:ℤ)).toNat = 0 from rfl,
      List.drop_zero, ← hrect row hrow, List.take_length]
  · intro v
    rfl

/-- C3 witness at a concrete input: a 1-row matrix of width 4 with
boundaries `[2]`, summed per segment. -/
theorem sync_spec_witness :
    ∃ out, sync (Arr.a2 [[(1:ℚ), 2, 3, 4]]) [2] List.sum true = .ok out ∧
      out.length = 1 ∧
      (∀ r ∈ out, r.length = ([(0:ℤ), 2, 4] : List ℤ).length - 1) ∧
      (∀ i, i < ([(0:ℤ), 2, 4] : List ℤ).length - 1 →
        column out i = [[(1:ℚ), 2, 3, 4]].map (fun row =>
          List.sum ((row.take (([(0:ℤ), 2, 4] : List ℤ).getD (i+1) 0).toNat).drop
            (([(0:ℤ), 2, 4] : List ℤ).getD i 0).toNat))) ∧
      (([2] : List ℤ) = [0, (4:ℤ)] → true = true → 1 ≤ 4 →
        out = [[(1:ℚ), 2, 3, 4]].map (fun row => [List.sum row])) ∧
      (∀ v : List ℚ, sync (Arr.a1 v) [2] List.sum true
        = sync (Arr.a2 [v]) [2] List.sum true) :=
  sync_spec [[(1:ℚ), 2, 3, 4]] 1 4 rfl (by decide)
    (by intro r hr; rw [List.mem_singleton.mp hr]; rfl)
    [2] List.sum true [(0:ℤ), 2, 4] (by decide)

/-! ### Error behavior (C4) and frame/sample conversions (C10) -/

/-- C4: each of the three transforms raises exactly the single error kind
`ParameterError`, synchronously during argument validation and before any
computation: `delta` (1-D and 2-D) errs iff `width < 3` or `width` is even
or `order ≤ 0`; `stack_memory` errs iff `n_steps < 1` or `delay < 1`;
`sync` errs iff the input rank exceeds 2; otherwise an `ok` result is
produced (no partial result on failure). -/
theorem validation_errors :
    (∀ (x : List ℚ) (width : ℕ) (order : ℤ) (trim : Bool),
      (∃ e, delta1 x width order trim = .error e)
        ↔ (width < 3 ∨ width % 2 = 0 ∨ order ≤ 0)) ∧
    (∀ (m : Mat) (width : ℕ) (order : ℤ) (axis : Fin 2) (trim : Bool),
      (∃ e, delta2 m width order axis trim = .error e)
        ↔ (width < 3 ∨ width % 2 = 0 ∨ order ≤ 0)) ∧
    (∀ (data : Mat) (n_steps delay : ℤ),
      (∃ e, stack_memory data n_steps delay = .error e)
        ↔ (n_steps < 1 ∨ delay < 1)) ∧
    (∀ (data : Arr) (frames : List ℤ) (agg : List ℚ → ℚ) (pad : Bool),
      (∃ e, sync data frames agg pad = .error e) ↔ 2 < data.ndim) := by
  refine ⟨?_, ?_, ?_, ?_⟩
  · intro x width order trim
    constructor
    · rintro ⟨e, he⟩
      by_contra hc
      push_neg at hc
      rw [delta1, if_neg (by omega), if_neg (by omega)] at he
      exact Except.noConfusion he
    · intro h
      rw [delta1]
      by_cases h1 : width < 3 ∨ width % 2 ≠ 1
      · exact ⟨_, by rw [if_pos h1]⟩
      · exact ⟨_, by rw [if_neg h1, if_pos (by omega : order ≤ 0)]⟩
  · intro m width order axis trim
    constructor
    · rintro ⟨e, he⟩
      by_contra hc
      push_neg at hc
      rw [delta2, if_neg (by omega), if_neg (by omega)] at he
      by_cases hax : axis = 1
      · rw [if_pos hax] at he
        exact Except.noConfusion he
      · rw [if_neg hax] at he
        exact Except.noConfusion he
    · intro h
      rw [delta2]
      by_cases h1 : width < 3 ∨ width % 2 ≠ 1
      · exact ⟨_, by rw [if_pos h1]⟩
      · exact ⟨_, by rw [if_neg h1, if_pos (by omega : order ≤ 0)]⟩
  · intro data n_steps delay
    constructor
    · rintro ⟨e, he⟩
      by_contra hc
      push_neg at hc
      rw [stack_memory, stack_memory_with, if_neg (by omega),
        if_neg (by omega)] at he
      exact Except.noConfusion he
    · intro h
      rw [stack_memory, stack_memory_with]
      by_cases h1 : n_steps < 1
      · exact ⟨_, by rw [if_pos h1]⟩
      · exact ⟨_, by rw [if_neg h1, if_pos (by omega : delay < 1)]⟩
  · intro data frames agg pad
    constructor
    · rintro ⟨e, he⟩
      by_contra hc
      rw [sync, if_neg hc] at he
      exact Except.noConfusion he
    · intro h
      exact ⟨_, by rw [sync, if_pos h]⟩

/-- C10: for every vector of integer frame indices, every `hop_length ≥ 1`
and any `n_fft` setting (None or the same value in both calls), the round
trip `samples_to_frames (frames_to_samples frames)` returns the original
frame indices exactly: the offset `n_fft // 2` added by `frames_to_samples`
is subtracted back and the floor division by `hop_length` inverts the
multiplication. -/
theorem frames_samples_round_trip (frames : List ℤ) (hop_length : ℤ)
    (n_fft : Option ℤ) (hhop : 1 ≤ hop_length) :
    samples_to_frames (frames_to_samples frames hop_length n_fft)
      hop_length n_fft = frames := by
  rw [samples_to_frames, frames_to_samples, List.map_map]
  have hid : ∀ f : ℤ,
      Int.fdiv (f * hop_length + fft_offset n_fft - fft_offset n_fft)
        hop_length = f := by
    intro f
    rw [add_sub_cancel_right]
    exact Int.mul_fdiv_cancel f (by omega)
  calc frames.map ((fun s => Int.fdiv (s - fft_offset n_fft) hop_length)
        ∘ (fun f => f * hop_length + fft_offset n_fft))
      = frames.map (fun f => f) := List.map_congr_left (fun f _ => hid f)
    _ = frames := List.map_id' frames

/-- C10 witness at a concrete input. -/
theorem frames_samples_round_trip_witness :
    samples_to_frames (frames_to_samples [3, 0, 7, -2] 512 (some 2048))
      512 (some 2048) = [3, 0, 7, -2] :=
  frames_samples_round_trip [3, 0, 7, -2] 512 (some 2048) (by decide)

end Librosa
